import Mathlib

/-!
Verification of the iris-indicator rendering/animation core.

JavaScript numbers are modelled as rationals (`ℚ`); the one place where the
source relies on the IEEE value `Infinity` (the initial accumulator of the
blend-ratio scan in `WebGLEngine.setSegments`) is modelled explicitly with
`Option ℚ`, where `none` stands for `Infinity`.
-/

namespace IrisSpec

/-! ## Segment-ratio easing (IrisIndicator.drawFrame, lines 552-582) -/

/-- The per-frame step factor, `const step = deltaMs /
this.segmentAdjustmentAnimationStepDuration` (line 554). -/
def stepOf (deltaMs stepDurationMs : ℚ) : ℚ := deltaMs / stepDurationMs

/-- One loop body of the segment-ratio easing in `drawFrame` (lines 558-582),
acting on a single segment: skip when `current === target`; otherwise compute
`direction = cur > tar ? -1 : 1` and `difference = |tar - cur|`; snap to the
target when `difference < 10e-4` (i.e. `1/1000`); otherwise move by
`direction * step * difference`. -/
def easeStep (step cur tar : ℚ) : ℚ :=
  if cur = tar then cur
  else
    let direction : ℚ := if cur > tar then -1 else 1
    let difference : ℚ := |tar - cur|
    if difference < 1/1000 then tar
    else cur + direction * step * difference

/-- The easing loop applied to all four segments of one `drawFrame` tick
(the body iterates `i = 0 .. MAX_SUPPORTED_SEGMENTS - 1`). -/
def segTick (step : ℚ) (tar cur : Fin 4 → ℚ) : Fin 4 → ℚ :=
  fun i => easeStep step (cur i) (tar i)

/-- Iterated easing: `n` repeated updates of a single segment ratio (repeated
`drawFrame` ticks with a fixed `step`). -/
def easeIter (step tar cur : ℚ) : ℕ → ℚ
  | 0 => cur
  | n + 1 => easeStep step (easeIter step tar cur n) tar

/-- Iterated easing of the four-segment ratio vector: `n` repeated `drawFrame` ticks. -/
def segIter (step : ℚ) (tar cur : Fin 4 → ℚ) : ℕ → Fin 4 → ℚ
  | 0 => cur
  | n + 1 => segTick step tar (segIter step tar cur n)

lemma segIter_eq_easeIter (step : ℚ) (tar cur : Fin 4 → ℚ) (n : ℕ) (i : Fin 4) :
    segIter step tar cur n i = easeIter step (tar i) (cur i) n := by
  induction n with
  | zero => rfl
  | succ n ih => simp [segIter, segTick, easeIter, ih]

/-- The easing direction times the absolute gap is the signed gap. -/
lemma direction_mul_abs (cur tar : ℚ) (h : cur ≠ tar) :
    (if cur > tar then (-1 : ℚ) else 1) * |tar - cur| = tar - cur := by
  rcases lt_or_gt_of_ne h with hlt | hgt
  · rw [if_neg (not_lt.mpr hlt.le), one_mul, abs_of_pos (by linarith)]
  · rw [if_pos hgt, abs_of_neg (by linarith)]; ring

/-- In the non-snap case the update is exactly `cur + step * (tar - cur)`. -/
lemma easeStep_eq_lerp (step cur tar : ℚ) (h : cur ≠ tar)
    (hgap : ¬ |tar - cur| < 1/1000) :
    easeStep step cur tar = cur + step * (tar - cur) := by
  rw [easeStep, if_neg h]
  simp only [if_neg hgap]
  rw [mul_comm _ step, mul_assoc, direction_mul_abs cur tar h]

/-- Snapping: whenever the remaining gap is (strictly) below `1/1000`, one
easing step lands exactly on the target (this also covers `cur = tar`). -/
lemma easeStep_snap (step cur tar : ℚ) (hgap : |tar - cur| < 1/1000) :
    easeStep step cur tar = tar := by
  by_cases h : cur = tar
  · subst h; simp [easeStep]
  · rw [easeStep, if_neg h]; simp only [if_pos hgap]

/-- The target is a fixed point of the easing step. -/
lemma easeStep_fixed (step tar : ℚ) : easeStep step tar tar = tar := by
  simp [easeStep]

/-- One easing step contracts the gap by a factor `1 - step`
(for `0 ≤ step ≤ 1`). -/
lemma easeStep_contraction (step cur tar : ℚ) (h0 : 0 ≤ step) (h1 : step ≤ 1) :
    |tar - easeStep step cur tar| ≤ (1 - step) * |tar - cur| := by
  by_cases h : cur = tar
  · subst h; simp [easeStep_fixed]
  · by_cases hgap : |tar - cur| < 1/1000
    · rw [easeStep_snap step cur tar hgap, sub_self, abs_zero]
      exact mul_nonneg (by linarith) (abs_nonneg _)
    · rw [easeStep_eq_lerp step cur tar h hgap]
      have : tar - (cur + step * (tar - cur)) = (1 - step) * (tar - cur) := by ring
      rw [this, abs_mul, abs_of_nonneg (by linarith : (0:ℚ) ≤ 1 - step)]

/-- Iterated contraction: after `n` steps the gap is at most
`(1 - step) ^ n` times the initial gap. -/
lemma easeIter_contraction (step tar cur : ℚ) (h0 : 0 ≤ step) (h1 : step ≤ 1)
    (n : ℕ) :
    |tar - easeIter step tar cur n| ≤ (1 - step) ^ n * |tar - cur| := by
  induction n with
  | zero => simp [easeIter]
  | succ n ih =>
    calc |tar - easeIter step tar cur (n + 1)|
        ≤ (1 - step) * |tar - easeIter step tar cur n| :=
          easeStep_contraction step _ tar h0 h1
      _ ≤ (1 - step) * ((1 - step) ^ n * |tar - cur|) :=
          mul_le_mul_of_nonneg_left ih (by linarith)
      _ = (1 - step) ^ (n + 1) * |tar - cur| := by ring

/-- One easing step never overshoots: the updated value stays between the
old value and the target (for `0 ≤ step ≤ 1`). -/
lemma easeStep_no_overshoot (step cur tar : ℚ) (h0 : 0 ≤ step) (h1 : step ≤ 1) :
    (cur ≤ tar → cur ≤ easeStep step cur tar ∧ easeStep step cur tar ≤ tar) ∧
    (tar ≤ cur → tar ≤ easeStep step cur tar ∧ easeStep step cur tar ≤ cur) := by
  by_cases h : cur = tar
  · subst h; simp [easeStep_fixed]
  · by_cases hgap : |tar - cur| < 1/1000
    · rw [easeStep_snap step cur tar hgap]
      exact ⟨fun hc => ⟨hc, le_refl _⟩, fun hc => ⟨le_refl _, hc⟩⟩
    · rw [easeStep_eq_lerp step cur tar h hgap]
      constructor
      · intro hc
        have h2 : 0 ≤ step * (tar - cur) := mul_nonneg h0 (by linarith)
        have h3 : 0 ≤ (1 - step) * (tar - cur) :=
          mul_nonneg (by linarith) (by linarith)
        constructor <;> nlinarith
      · intro hc
        have h2 : step * (tar - cur) ≤ 0 :=
          mul_nonpos_of_nonneg_of_nonpos h0 (by linarith)
        have h3 : (1 - step) * (tar - cur) ≤ 0 :=
          mul_nonpos_of_nonneg_of_nonpos (by linarith) (by linarith)
        constructor <;> nlinarith

/-- Iterated no-overshoot: every iterate stays between the initial value and
the target. -/
lemma easeIter_no_overshoot (step tar cur : ℚ) (h0 : 0 ≤ step) (h1 : step ≤ 1)
    (n : ℕ) :
    (cur ≤ tar → cur ≤ easeIter step tar cur n ∧ easeIter step tar cur n ≤ tar) ∧
    (tar ≤ cur → tar ≤ easeIter step tar cur n ∧ easeIter step tar cur n ≤ cur) := by
  induction n with
  | zero => exact ⟨fun hc => ⟨le_refl _, hc⟩, fun hc => ⟨hc, le_refl _⟩⟩
  | succ n ih =>
    constructor
    · intro hc
      obtain ⟨hlo, hhi⟩ := ih.1 hc
      obtain ⟨h1', h2'⟩ := (easeStep_no_overshoot step (easeIter step tar cur n) tar h0 h1).1 hhi
      exact ⟨le_trans hlo h1', h2'⟩
    · intro hc
      obtain ⟨hlo, hhi⟩ := ih.2 hc
      obtain ⟨h1', h2'⟩ := (easeStep_no_overshoot step (easeIter step tar cur n) tar h0 h1).2 hlo
      exact ⟨h1', le_trans h2' hhi⟩

/-- Convergence of a single segment's easing: for `0 < step ≤ 1` the iterates
reach the target exactly and stay there. -/
lemma easeIter_converges (step tar cur : ℚ) (h0 : 0 < step) (h1 : step ≤ 1) :
    ∃ n, ∀ m, n ≤ m → easeIter step tar cur m = tar := by
  have hr0 : (0:ℚ) ≤ 1 - step := by linarith
  have hr1 : (1:ℚ) - step < 1 := by linarith
  obtain ⟨k, hk⟩ : ∃ k, (1 - step) ^ k * |tar - cur| < 1/1000 := by
    rcases eq_or_lt_of_le (abs_nonneg (tar - cur)) with hz | hz
    · exact ⟨0, by rw [pow_zero, one_mul, ← hz]; norm_num⟩
    · obtain ⟨k, hk⟩ := exists_pow_lt_of_lt_one
        (div_pos (by norm_num : (0:ℚ) < 1/1000) hz) hr1
      exact ⟨k, (lt_div_iff hz).mp hk⟩
  have hsnap : easeIter step tar cur (k + 1) = tar := by
    show easeStep step (easeIter step tar cur k) tar = tar
    exact easeStep_snap step _ tar
      (lt_of_le_of_lt (easeIter_contraction step tar cur h0.le h1 k) hk)
  refine ⟨k + 1, fun m hm => ?_⟩
  obtain ⟨j, rfl⟩ := Nat.exists_eq_add_of_le hm
  induction j with
  | zero => exact hsnap
  | succ j ih =>
    show easeStep step (easeIter step tar cur (k + 1 + j)) tar = tar
    rw [ih (Nat.le_add_right _ _), easeStep_fixed]

/-- Claim C5: once the gap `|target - current|` is below `1e-3` (and
`current ≠ target`), the next easing step of `drawFrame` sets `current`
equal to `target` exactly. -/
theorem ratio_snap (step cur tar : ℚ) (hne : cur ≠ tar)
    (hgap : |tar - cur| < 1/1000) :
    easeStep step cur tar = tar :=
  easeStep_snap step cur tar hgap

theorem ratio_snap_witness :
    ((1:ℚ)/2000 ≠ 0) ∧ |(0:ℚ) - 1/2000| < 1/1000 ∧
      easeStep (1/2) (1/2000) 0 = 0 :=
  ⟨by norm_num, by rw [abs_lt]; constructor <;> norm_num,
    ratio_snap (1/2) (1/2000) 0 (by norm_num)
      (by rw [abs_lt]; constructor <;> norm_num)⟩

/-- Claim C1, counterexample: with `deltaMs = 200` and
`stepDurationMs = 100` (so `step = 2`, a fixed positive `deltaMs`), a segment
whose current ratio `0` lies below its target `1` is eased to `2`, crossing
strictly past the target — the update overshoots. The target vector
`(1,0,0,0)` sums to `1`. -/
def exTar : Fin 4 → ℚ
  | 0 => 1
  | 1 => 0
  | 2 => 0
  | 3 => 0

def exCur : Fin 4 → ℚ := fun _ => 0

theorem ratio_easing_overshoots :
    stepOf 200 100 = 2 ∧
    exTar 0 + exTar 1 + exTar 2 + exTar 3 = 1 ∧
    exCur 0 < exTar 0 ∧
    exTar 0 < segTick (stepOf 200 100) exTar exCur 0 := by
  have hs : stepOf 200 100 = 2 := by norm_num [stepOf]
  refine ⟨hs, by norm_num [exTar], by norm_num [exTar, exCur], ?_⟩
  show exTar 0 < easeStep (stepOf 200 100) (exCur 0) (exTar 0)
  rw [hs]
  show (1:ℚ) < easeStep 2 0 1
  rw [easeStep]
  norm_num

/-- Claim C1 (amended): for every target ratio vector summing to `1`, every
initial current vector, and every fixed positive `deltaMs` that does not
exceed the step duration (`0 < step ≤ 1`), repeated `drawFrame` easing ticks
make every segment's current ratio reach its target exactly after finitely
many steps (and stay there), and never overshoot: each component stays
between its initial value and its target, so the easing direction can only
flip once `current = target`, never by crossing past it. -/
theorem ratio_easing_converges (step : ℚ) (tar cur : Fin 4 → ℚ)
    (hsum : tar 0 + tar 1 + tar 2 + tar 3 = 1)
    (h0 : 0 < step) (h1 : step ≤ 1) :
    (∃ n, ∀ m, n ≤ m → ∀ i, segIter step tar cur m i = tar i) ∧
    (∀ i, cur i ≤ tar i →
      ∀ n, cur i ≤ segIter step tar cur n i ∧ segIter step tar cur n i ≤ tar i) ∧
    (∀ i, tar i ≤ cur i →
      ∀ n, tar i ≤ segIter step tar cur n i ∧ segIter step tar cur n i ≤ cur i) := by
  refine ⟨?_, ?_, ?_⟩
  · choose N hN using fun i : Fin 4 => easeIter_converges step (tar i) (cur i) h0 h1
    refine ⟨(N 0).max ((N 1).max ((N 2).max (N 3))), fun m hm i => ?_⟩
    rw [segIter_eq_easeIter]
    apply hN i
    fin_cases i
    · exact le_trans (Nat.le_max_left _ _) hm
    · exact le_trans (le_trans (Nat.le_max_left _ _) (Nat.le_max_right _ _)) hm
    · exact le_trans (le_trans (le_trans (Nat.le_max_left _ _) (Nat.le_max_right _ _))
        (Nat.le_max_right _ _)) hm
    · exact le_trans (le_trans (le_trans (Nat.le_max_right _ _) (Nat.le_max_right _ _))
        (Nat.le_max_right _ _)) hm
  · intro i hc n
    rw [segIter_eq_easeIter]
    exact (easeIter_no_overshoot step (tar i) (cur i) h0.le h1 n).1 hc
  · intro i hc n
    rw [segIter_eq_easeIter]
    exact (easeIter_no_overshoot step (tar i) (cur i) h0.le h1 n).2 hc

theorem ratio_easing_converges_witness :
    (exTar 0 + exTar 1 + exTar 2 + exTar 3 = 1) ∧ (0 < (1:ℚ)/2) ∧ ((1:ℚ)/2 ≤ 1) ∧
    ((∃ n, ∀ m, n ≤ m → ∀ i, segIter (1/2) exTar exCur m i = exTar i) ∧
     (∀ i, exCur i ≤ exTar i →
       ∀ n, exCur i ≤ segIter (1/2) exTar exCur n i ∧
         segIter (1/2) exTar exCur n i ≤ exTar i) ∧
     (∀ i, exTar i ≤ exCur i →
       ∀ n, exTar i ≤ segIter (1/2) exTar exCur n i ∧
         segIter (1/2) exTar exCur n i ≤ exCur i)) :=
  ⟨by norm_num [exTar], by norm_num, by norm_num,
    ratio_easing_converges (1/2) exTar exCur (by norm_num [exTar])
      (by norm_num) (by norm_num)⟩

/-! ## Ray radius oscillation (IrisIndicator.drawFrame, lines 588-605) -/

/-- The per-ray radius state of `interface Ray` (`iris-indicator.ts`,
lines 10-32): fixed `inner`, randomized `min`/`max` band, the animated
`current` radius and the growth direction flag `inc`. -/
structure RayRadius where
  inner : ℚ
  min : ℚ
  max : ℚ
  current : ℚ
  inc : Bool

/-- The pre-clamp moved radius of the "MODIFY RAYS" block of `drawFrame`
(lines 594-595): `increment = (max - min) * speed` and
`current = inc ? current + increment : current - increment`. -/
def rayMoved (speed : ℚ) (r : RayRadius) : ℚ :=
  if r.inc then r.current + (r.max - r.min) * speed
  else r.current - (r.max - r.min) * speed

/-- One loop body of the "MODIFY RAYS" block of `drawFrame` (lines 591-605):
move `current` by `increment = (max - min) * speed` outwards (`inc`) or
inwards, then clamp at `min` (setting `inc = true`) or at `max` (setting
`inc = false`). `speed = deltaMs / rayMovementSpeed` (line 590). -/
def rayRadiusUpdate (speed : ℚ) (r : RayRadius) : RayRadius :=
  let current := rayMoved speed r
  if current ≤ r.min then { r with current := r.min, inc := true }
  else if current ≥ r.max then { r with current := r.max, inc := false }
  else { r with current := current }

/-- Iterated radius motion: `n` repeated per-frame radius updates of one ray. -/
def rayIter (speed : ℚ) (r : RayRadius) : ℕ → RayRadius
  | 0 => r
  | n + 1 => rayRadiusUpdate speed (rayIter speed r n)

lemma rayRadiusUpdate_eq_low (speed : ℚ) (r : RayRadius)
    (h : rayMoved speed r ≤ r.min) :
    rayRadiusUpdate speed r = { r with current := r.min, inc := true } := by
  rw [rayRadiusUpdate]; rw [if_pos h]

lemma rayRadiusUpdate_eq_high (speed : ℚ) (r : RayRadius)
    (h1 : ¬ rayMoved speed r ≤ r.min) (h2 : rayMoved speed r ≥ r.max) :
    rayRadiusUpdate speed r = { r with current := r.max, inc := false } := by
  rw [rayRadiusUpdate]; rw [if_neg h1, if_pos h2]

lemma rayRadiusUpdate_eq_mid (speed : ℚ) (r : RayRadius)
    (h1 : ¬ rayMoved speed r ≤ r.min) (h2 : ¬ rayMoved speed r ≥ r.max) :
    rayRadiusUpdate speed r = { r with current := rayMoved speed r } := by
  rw [rayRadiusUpdate]; rw [if_neg h1, if_neg h2]

lemma rayRadiusUpdate_min (speed : ℚ) (r : RayRadius) :
    (rayRadiusUpdate speed r).min = r.min := by
  by_cases h1 : rayMoved speed r ≤ r.min
  · rw [rayRadiusUpdate_eq_low speed r h1]
  · by_cases h2 : rayMoved speed r ≥ r.max
    · rw [rayRadiusUpdate_eq_high speed r h1 h2]
    · rw [rayRadiusUpdate_eq_mid speed r h1 h2]

lemma rayRadiusUpdate_max (speed : ℚ) (r : RayRadius) :
    (rayRadiusUpdate speed r).max = r.max := by
  by_cases h1 : rayMoved speed r ≤ r.min
  · rw [rayRadiusUpdate_eq_low speed r h1]
  · by_cases h2 : rayMoved speed r ≥ r.max
    · rw [rayRadiusUpdate_eq_high speed r h1 h2]
    · rw [rayRadiusUpdate_eq_mid speed r h1 h2]

/-- After any single radius update (regardless of the incoming `current`),
the clamped value lies in `[min, max]`. -/
lemma rayRadiusUpdate_bounds (speed : ℚ) (r : RayRadius) (h : r.min ≤ r.max) :
    r.min ≤ (rayRadiusUpdate speed r).current ∧
      (rayRadiusUpdate speed r).current ≤ r.max := by
  by_cases h1 : rayMoved speed r ≤ r.min
  · rw [rayRadiusUpdate_eq_low speed r h1]
    exact ⟨le_refl _, h⟩
  · by_cases h2 : rayMoved speed r ≥ r.max
    · rw [rayRadiusUpdate_eq_high speed r h1 h2]
      exact ⟨h, le_refl _⟩
    · rw [rayRadiusUpdate_eq_mid speed r h1 h2]
      push_neg at h1 h2
      exact ⟨h1.le, h2.le⟩

lemma rayIter_min (speed : ℚ) (r : RayRadius) (n : ℕ) :
    (rayIter speed r n).min = r.min := by
  induction n with
  | zero => rfl
  | succ n ih => rw [rayIter, rayRadiusUpdate_min, ih]

lemma rayIter_max (speed : ℚ) (r : RayRadius) (n : ℕ) :
    (rayIter speed r n).max = r.max := by
  induction n with
  | zero => rfl
  | succ n ih => rw [rayIter, rayRadiusUpdate_max, ih]

/-- Claim C6: for `min < max` and non-negative `deltaMs`, the per-frame
radius update keeps `min ≤ current ≤ max` after clamping; the direction
flag `inc` flips exactly at the bounds (`true` on hitting `min`, `false` on
hitting `max`, unchanged strictly inside); and repeated updates never leave
`[min, max]`. -/
theorem ray_radius_reflection (deltaMs rayMovementSpeed : ℚ) (r : RayRadius)
    (hd : 0 ≤ deltaMs) (hv : 0 < rayMovementSpeed) (hmm : r.min < r.max) :
    (r.min ≤ (rayRadiusUpdate (deltaMs / rayMovementSpeed) r).current ∧
      (rayRadiusUpdate (deltaMs / rayMovementSpeed) r).current ≤ r.max) ∧
    ((rayRadiusUpdate (deltaMs / rayMovementSpeed) r).inc ≠ r.inc →
      (rayRadiusUpdate (deltaMs / rayMovementSpeed) r).current = r.min ∨
      (rayRadiusUpdate (deltaMs / rayMovementSpeed) r).current = r.max) ∧
    ((rayRadiusUpdate (deltaMs / rayMovementSpeed) r).current = r.min →
      (rayRadiusUpdate (deltaMs / rayMovementSpeed) r).inc = true) ∧
    ((rayRadiusUpdate (deltaMs / rayMovementSpeed) r).current = r.max →
      (rayRadiusUpdate (deltaMs / rayMovementSpeed) r).inc = false) ∧
    (r.min < (rayRadiusUpdate (deltaMs / rayMovementSpeed) r).current →
      (rayRadiusUpdate (deltaMs / rayMovementSpeed) r).current < r.max →
      (rayRadiusUpdate (deltaMs / rayMovementSpeed) r).inc = r.inc) ∧
    (∀ n, 1 ≤ n →
      r.min ≤ (rayIter (deltaMs / rayMovementSpeed) r n).current ∧
      (rayIter (deltaMs / rayMovementSpeed) r n).current ≤ r.max) := by
  refine ⟨rayRadiusUpdate_bounds (deltaMs / rayMovementSpeed) r hmm.le,
    ?_, ?_, ?_, ?_, ?_⟩
  · by_cases h1 : rayMoved (deltaMs / rayMovementSpeed) r ≤ r.min
    · rw [rayRadiusUpdate_eq_low _ r h1]; intro _; exact Or.inl rfl
    · by_cases h2 : rayMoved (deltaMs / rayMovementSpeed) r ≥ r.max
      · rw [rayRadiusUpdate_eq_high _ r h1 h2]; intro _; exact Or.inr rfl
      · rw [rayRadiusUpdate_eq_mid _ r h1 h2]; intro hflip
        exact absurd rfl hflip
  · by_cases h1 : rayMoved (deltaMs / rayMovementSpeed) r ≤ r.min
    · rw [rayRadiusUpdate_eq_low _ r h1]; intro _; rfl
    · by_cases h2 : rayMoved (deltaMs / rayMovementSpeed) r ≥ r.max
      · rw [rayRadiusUpdate_eq_high _ r h1 h2]; intro hc
        exact absurd hc (ne_of_gt hmm)
      · rw [rayRadiusUpdate_eq_mid _ r h1 h2]; intro hc
        push_neg at h1
        exact absurd hc (ne_of_gt h1)
  · by_cases h1 : rayMoved (deltaMs / rayMovementSpeed) r ≤ r.min
    · rw [rayRadiusUpdate_eq_low _ r h1]; intro hc
      exact absurd hc (ne_of_lt hmm)
    · by_cases h2 : rayMoved (deltaMs / rayMovementSpeed) r ≥ r.max
      · rw [rayRadiusUpdate_eq_high _ r h1 h2]; intro _; rfl
      · rw [rayRadiusUpdate_eq_mid _ r h1 h2]; intro hc
        push_neg at h2
        exact absurd hc (ne_of_lt h2)
  · by_cases h1 : rayMoved (deltaMs / rayMovementSpeed) r ≤ r.min
    · rw [rayRadiusUpdate_eq_low _ r h1]; intro hlo _
      exact absurd hlo (lt_irrefl _)
    · by_cases h2 : rayMoved (deltaMs / rayMovementSpeed) r ≥ r.max
      · rw [rayRadiusUpdate_eq_high _ r h1 h2]; intro _ hhi
        exact absurd hhi (lt_irrefl _)
      · rw [rayRadiusUpdate_eq_mid _ r h1 h2]; intro _ _; rfl
  · intro n hn
    obtain ⟨m, rfl⟩ : ∃ m, n = m + 1 := ⟨n - 1, by omega⟩
    have hmin := rayIter_min (deltaMs / rayMovementSpeed) r m
    have hmax := rayIter_max (deltaMs / rayMovementSpeed) r m
    have hb' := rayRadiusUpdate_bounds (deltaMs / rayMovementSpeed)
      (rayIter (deltaMs / rayMovementSpeed) r m) (by rw [hmin, hmax]; exact hmm.le)
    rw [hmin, hmax] at hb'
    exact hb'

theorem ray_radius_reflection_witness :
    (0 ≤ (1000:ℚ)) ∧ (0 < (5000:ℚ)) ∧
    (RayRadius.mk 0 1 2 (3/2) true).min < (RayRadius.mk 0 1 2 (3/2) true).max ∧
    ((RayRadius.mk 0 1 2 (3/2) true).min ≤
        (rayRadiusUpdate ((1000:ℚ) / 5000) (RayRadius.mk 0 1 2 (3/2) true)).current ∧
      (rayRadiusUpdate ((1000:ℚ) / 5000) (RayRadius.mk 0 1 2 (3/2) true)).current ≤
        (RayRadius.mk 0 1 2 (3/2) true).max) :=
  ⟨by norm_num, by norm_num, by norm_num,
    (ray_radius_reflection 1000 5000 (RayRadius.mk 0 1 2 (3/2) true)
      (by norm_num) (by norm_num) (by norm_num)).1⟩

/-! ## Controller ray state and setRayCount (iris-indicator.ts) -/

/-- A ray as held in `IrisIndicator.rays` (lines 10-32): fixed angular
position and width plus the radius state. -/
structure Ray where
  radians : ℚ
  width : ℚ
  radius : RayRadius

/-- The slice of `IrisIndicator` state that `setRayCount` interacts with:
the auto-adjust flag, the configured ray count, and the generated rays. -/
structure IndicatorRayState where
  autoAdjustRays : Bool
  nRays : ℕ
  rays : List Ray

/-- Model of `IrisIndicator.setRayCount` (lines 305-308): sets
`autoAdjustRays = false` and `nRays = count`. It performs no other state
change (in particular it does not call `generateRays`). -/
def setRayCount (st : IndicatorRayState) (count : ℕ) : IndicatorRayState :=
  { st with autoAdjustRays := false, nRays := count }

def exRay : Ray := ⟨0, 0, ⟨0, 0, 1, 0, true⟩⟩

def exIndicator : IndicatorRayState := ⟨true, 1, [exRay]⟩

/-- Claim C2, counterexample: calling `setRayCount 5` on a state holding a
single previously generated ray leaves the `rays` array untouched — it still
holds the previous single ray and does not consist of `5` freshly generated
rays. -/
theorem setRayCount_does_not_regenerate :
    (setRayCount exIndicator 5).rays = exIndicator.rays ∧
    (setRayCount exIndicator 5).rays.length ≠ 5 :=
  ⟨rfl, by simp [setRayCount, exIndicator]⟩

/-- Claim C2 (amended): `setRayCount n` disables automatic ray-count
adjustment and stores `n` as the ray count, but does not regenerate the ray
geometry: the `rays` array is left exactly as it was (regeneration happens
only later, e.g. on the next resize calculation). -/
theorem setRayCount_state (st : IndicatorRayState) (count : ℕ) :
    (setRayCount st count).autoAdjustRays = false ∧
    (setRayCount st count).nRays = count ∧
    (setRayCount st count).rays = st.rays :=
  ⟨rfl, rfl, rfl⟩

/-! ## FPS rolling window (IrisIndicator.loop, lines 439-460, and
getCurrentFps, lines 411-417) -/

/-- The `while (this.frameTimings.length > 120) { this.frameTimings.shift() }`
loop of `loop` (lines 453-455). -/
def trimTimings (l : List ℚ) : List ℚ :=
  if h : l.length > 120 then trimTimings l.tail else l
termination_by l.length
decreasing_by
  simp only [List.length_tail]
  omega

/-- One frame's sample recording in `loop` (lines 452-455): push the new
sample, then evict from the front while more than 120 samples are held. -/
def pushTiming (w : List ℚ) (x : ℚ) : List ℚ := trimTimings (w ++ [x])

/-- Model of `IrisIndicator.getCurrentFps` (lines 411-417): the arithmetic mean of the
rolling window, `0` if the window is empty. -/
def getCurrentFps (w : List ℚ) : ℚ :=
  if w.length > 0 then w.foldl (· + ·) 0 / (w.length : ℚ) else 0

lemma trimTimings_of_length (n : ℕ) :
    ∀ l : List ℚ, l.length ≤ n → trimTimings l = l.drop (l.length - 120) := by
  induction n with
  | zero =>
    intro l hl
    rw [trimTimings, dif_neg (by omega)]
    have h0 : l.length - 120 = 0 := by omega
    rw [h0, List.drop_zero]
  | succ n ih =>
    intro l hl
    rw [trimTimings]
    by_cases h : l.length > 120
    · rw [dif_pos h, ih l.tail (by simp only [List.length_tail]; omega)]
      rw [show l.tail = l.drop 1 from (List.drop_one l).symm, List.drop_drop]
      congr 1
      simp only [List.length_drop]
      omega
    · rw [dif_neg h]
      have h0 : l.length - 120 = 0 := by omega
      rw [h0, List.drop_zero]

lemma trimTimings_eq_drop (l : List ℚ) :
    trimTimings l = l.drop (l.length - 120) :=
  trimTimings_of_length l.length l (le_refl _)

/-- Pushing samples one at a time from the empty window retains exactly the
most recent `120` of them (the oldest are evicted first). -/
lemma foldl_pushTiming (xs : List ℚ) :
    xs.foldl pushTiming [] = xs.drop (xs.length - 120) := by
  induction xs using List.reverseRecOn with
  | nil => rfl
  | append_singleton xs x ih =>
    rw [List.foldl_append, List.foldl_cons, List.foldl_nil, ih]
    show trimTimings (xs.drop (xs.length - 120) ++ [x]) = _
    rw [show xs.drop (xs.length - 120) ++ [x] = (xs ++ [x]).drop (xs.length - 120) from
      (List.drop_append_of_le_length (by omega)).symm]
    rw [trimTimings_eq_drop, List.drop_drop]
    refine congrArg (fun k => List.drop k (xs ++ [x])) ?_
    simp only [List.length_drop, List.length_append, List.length_cons,
      List.length_nil]
    omega

lemma foldl_add_eq_sum (l : List ℚ) (a : ℚ) : l.foldl (· + ·) a = a + l.sum := by
  induction l generalizing a with
  | nil => simp
  | cons x l ih => rw [List.foldl_cons, ih, List.sum_cons]; ring

/-- Claim C8: the FPS sample window never holds more than 120 samples —
after pushing any number of samples (in order, starting empty) only the most
recent 120 are retained, oldest evicted first; `getCurrentFps` returns the
arithmetic mean of the retained samples and `0` when the window is empty. -/
theorem fps_rolling_window (xs : List ℚ) :
    xs.foldl pushTiming [] = xs.drop (xs.length - 120) ∧
    (xs.foldl pushTiming []).length ≤ 120 ∧
    getCurrentFps (xs.foldl pushTiming []) =
      (if xs.foldl pushTiming [] = [] then 0
       else (xs.foldl pushTiming []).sum / ((xs.foldl pushTiming []).length : ℚ)) := by
  refine ⟨foldl_pushTiming xs, ?_, ?_⟩
  · rw [foldl_pushTiming xs]
    simp only [List.length_drop]
    omega
  · set w := xs.foldl pushTiming [] with hw
    by_cases hnil : w = []
    · rw [hnil]
      simp [getCurrentFps]
    · rw [if_neg hnil]
      have hpos : w.length > 0 := List.length_pos.mpr hnil
      rw [getCurrentFps, if_pos hpos, foldl_add_eq_sum, zero_add]

/-! ## Blend ratio (WebGLEngine.setSegments, lines 331-346) -/

/-- One iteration of the `for (const { ratio } of segments)` scan of
`setSegments` (lines 333-341): skip zero ratios, otherwise keep the smaller
of the accumulator and the ratio. The accumulator starts at `Infinity`,
modelled as `none` (any finite ratio compares below `Infinity`). -/
def minNZstep (acc : Option ℚ) (r : ℚ) : Option ℚ :=
  if r = 0 then acc
  else
    match acc with
    | none => some r
    | some m => if r < m then some r else some m

/-- The full scan over the four segment ratios (lines 332-341). -/
def minNonzeroRatio (ratios : List ℚ) : Option ℚ :=
  ratios.foldl minNZstep none

/-- Model of `Math.min(x, b)` where `x` may be `Infinity` (`none`) and `b` is finite. -/
def jsMinInf (a : Option ℚ) (b : ℚ) : ℚ :=
  match a with
  | none => b
  | some x => min x b

/-- The blend-ratio computation of `WebGLEngine.setSegments` (lines
331-346): the smallest nonzero ratio (or `Infinity`), halved
(`Infinity / 2 = Infinity`), then clamped via
`Math.max(Math.min(blendRatio, 0.1), 0.01)`. -/
def setSegmentsBlendRatio (ratios : List ℚ) : ℚ :=
  max (jsMinInf ((minNonzeroRatio ratios).map (fun x => x / 2)) (1/10)) (1/100)

lemma minNZstep_some (a r : ℚ) (hr : r ≠ 0) :
    minNZstep (some a) r = some (min a r) := by
  simp only [minNZstep, if_neg hr]
  split_ifs with h
  · rw [min_eq_right h.le]
  · rw [min_eq_left (not_lt.mp h)]

lemma minNZstep_none_acc (r : ℚ) (hr : r ≠ 0) : minNZstep none r = some r := by
  simp only [minNZstep, if_neg hr]

lemma minNZstep_zero (acc : Option ℚ) (r : ℚ) (hr : r = 0) :
    minNZstep acc r = acc := by
  simp only [minNZstep, if_pos hr]

lemma minNZfold_none :
    ∀ (l : List ℚ) (acc : Option ℚ), l.foldl minNZstep acc = none →
      acc = none ∧ ∀ r ∈ l, r = 0 := by
  intro l
  induction l with
  | nil => intro acc h; exact ⟨h, by simp⟩
  | cons r l ih =>
    intro acc h
    rw [List.foldl_cons] at h
    obtain ⟨hacc, hall⟩ := ih _ h
    by_cases hr : r = 0
    · rw [minNZstep_zero acc r hr] at hacc
      refine ⟨hacc, fun x hx => ?_⟩
      rcases List.mem_cons.mp hx with h1 | h2
      · rw [h1]; exact hr
      · exact hall x h2
    · exfalso
      cases acc with
      | none => rw [minNZstep_none_acc r hr] at hacc; exact Option.noConfusion hacc
      | some a => rw [minNZstep_some a r hr] at hacc; exact Option.noConfusion hacc

lemma minNZfold_le :
    ∀ (l : List ℚ) (acc : Option ℚ) (m : ℚ), l.foldl minNZstep acc = some m →
      (∀ a, acc = some a → m ≤ a) ∧ (∀ r ∈ l, r ≠ 0 → m ≤ r) := by
  intro l
  induction l with
  | nil =>
    intro acc m h
    rw [List.foldl_nil] at h
    refine ⟨fun a ha => ?_, by simp⟩
    rw [ha] at h
    exact le_of_eq (Option.some.inj h).symm
  | cons r l ih =>
    intro acc m h
    rw [List.foldl_cons] at h
    obtain ⟨hstep, hl⟩ := ih _ _ h
    constructor
    · intro a ha
      by_cases hr : r = 0
      · exact hstep a (by rw [ha, minNZstep_zero _ r hr])
      · have hm := hstep (min a r) (by rw [ha, minNZstep_some a r hr])
        exact le_trans hm (min_le_left a r)
    · intro x hx hx0
      rcases List.mem_cons.mp hx with h1 | h2
      · subst h1
        cases hacc : acc with
        | none => exact hstep x (by rw [hacc, minNZstep_none_acc x hx0])
        | some a =>
          have hm := hstep (min a x) (by rw [hacc, minNZstep_some a x hx0])
          exact le_trans hm (min_le_right a x)
      · exact hl x h2 hx0

lemma minNZfold_mem :
    ∀ (l : List ℚ) (acc : Option ℚ) (m : ℚ), l.foldl minNZstep acc = some m →
      acc = some m ∨ (m ∈ l ∧ m ≠ 0) := by
  intro l
  induction l with
  | nil => intro acc m h; exact Or.inl h
  | cons r l ih =>
    intro acc m h
    rw [List.foldl_cons] at h
    rcases ih _ _ h with hacc | hmem
    · by_cases hr : r = 0
      · rw [minNZstep_zero acc r hr] at hacc
        exact Or.inl hacc
      · cases hacc' : acc with
        | none =>
          rw [hacc', minNZstep_none_acc r hr] at hacc
          have : r = m := Option.some.inj hacc
          exact Or.inr ⟨by rw [← this]; exact List.mem_cons_self r l,
            by rw [← this]; exact hr⟩
        | some a =>
          rw [hacc', minNZstep_some a r hr] at hacc
          have hm : min a r = m := Option.some.inj hacc
          rcases min_choice a r with hc | hc
          · exact Or.inl (by rw [← hm, hc])
          · refine Or.inr ⟨?_, ?_⟩
            · rw [← hm, hc]; exact List.mem_cons_self r l
            · rw [← hm, hc]; exact hr
    · exact Or.inr ⟨List.mem_cons_of_mem r hmem.1, hmem.2⟩

/-- Claim C7: for every segment ratio 4-vector with at least one nonzero
ratio, `setSegments` computes the blend angular width as half of the
smallest nonzero ratio, clamped into `[0.01, 0.1]`; in particular a smallest
nonzero ratio of `0.001` yields exactly `0.01` and a smallest nonzero ratio
of `0.5` yields exactly `0.1`. -/
theorem blend_width_clamp (r0 r1 r2 r3 : ℚ)
    (h : r0 ≠ 0 ∨ r1 ≠ 0 ∨ r2 ≠ 0 ∨ r3 ≠ 0) :
    ∃ m : ℚ, minNonzeroRatio [r0, r1, r2, r3] = some m ∧
      m ∈ [r0, r1, r2, r3] ∧ m ≠ 0 ∧
      (∀ r ∈ [r0, r1, r2, r3], r ≠ 0 → m ≤ r) ∧
      setSegmentsBlendRatio [r0, r1, r2, r3] = max (min (m / 2) (1/10)) (1/100) ∧
      (m = 1/1000 → setSegmentsBlendRatio [r0, r1, r2, r3] = 1/100) ∧
      (m = 1/2 → setSegmentsBlendRatio [r0, r1, r2, r3] = 1/10) := by
  cases hm : minNonzeroRatio [r0, r1, r2, r3] with
  | none =>
    exfalso
    obtain ⟨-, hall⟩ := minNZfold_none [r0, r1, r2, r3] none hm
    rcases h with h | h | h | h <;> exact h (hall _ (by simp))
  | some m =>
    obtain ⟨-, hle⟩ := minNZfold_le [r0, r1, r2, r3] none m hm
    rcases minNZfold_mem [r0, r1, r2, r3] none m hm with hacc | ⟨hmem, hm0⟩
    · exact absurd hacc (by simp)
    have hval : setSegmentsBlendRatio [r0, r1, r2, r3] =
        max (min (m / 2) (1/10)) (1/100) := by
      rw [setSegmentsBlendRatio, hm]
      rfl
    refine ⟨m, rfl, hmem, hm0, hle, hval, ?_, ?_⟩
    · intro hm1
      rw [hval, hm1]
      rw [min_eq_left (by norm_num), max_eq_right (by norm_num)]
    · intro hm1
      rw [hval, hm1]
      rw [min_eq_right (by norm_num), max_eq_left (by norm_num)]

theorem blend_width_clamp_witness :
    ((1:ℚ)/1000 ≠ 0 ∨ (999:ℚ)/1000 ≠ 0 ∨ (0:ℚ) ≠ 0 ∨ (0:ℚ) ≠ 0) ∧
    (∃ m : ℚ, minNonzeroRatio [1/1000, 999/1000, 0, 0] = some m ∧
      m ∈ [(1:ℚ)/1000, 999/1000, 0, 0] ∧ m ≠ 0 ∧
      (∀ r ∈ [(1:ℚ)/1000, 999/1000, 0, 0], r ≠ 0 → m ≤ r) ∧
      setSegmentsBlendRatio [1/1000, 999/1000, 0, 0] =
        max (min (m / 2) (1/10)) (1/100) ∧
      (m = 1/1000 → setSegmentsBlendRatio [1/1000, 999/1000, 0, 0] = 1/100) ∧
      (m = 1/2 → setSegmentsBlendRatio [1/1000, 999/1000, 0, 0] = 1/10)) :=
  ⟨Or.inl (by norm_num),
    blend_width_clamp (1/1000) (999/1000) 0 0 (Or.inl (by norm_num))⟩

/-- Claim C10: on the all-zero ratio vector the nonzero-minimum scan leaves
`Infinity`, and the clamp still produces the well-defined finite blend ratio
`0.1`; moreover for every input the computed blend ratio is a well-defined
rational in `[0.01, 0.1]` (the only division in the computation is by the
constant `2`, so no division by a computed zero ever occurs). -/
theorem blend_ratio_all_zero_safe :
    setSegmentsBlendRatio [0, 0, 0, 0] = 1/10 ∧
    ∀ ratios : List ℚ, 1/100 ≤ setSegmentsBlendRatio ratios ∧
      setSegmentsBlendRatio ratios ≤ 1/10 := by
  constructor
  · have hz : minNonzeroRatio [(0:ℚ), 0, 0, 0] = none := by
      simp [minNonzeroRatio, minNZstep]
    rw [setSegmentsBlendRatio, hz]
    show max (1/10 : ℚ) (1/100) = 1/10
    rw [max_eq_left (by norm_num)]
  · intro ratios
    refine ⟨le_max_right _ _, ?_⟩
    apply max_le _ (by norm_num)
    cases hmm : (minNonzeroRatio ratios).map (fun x => x / 2) with
    | none => simp [jsMinInf]
    | some q => simp only [jsMinInf]; exact min_le_right _ _

/-! ## Bloom pass slot discipline (WebGLEngine.setBloomIntensity, lines
288-290, and bloomPass, lines 539-605) -/

/-- Model of `WebGLEngine.setBloomIntensity` (lines 288-290):
`nBloomPasses = intensity * 8`. -/
def nBloomPassesOf (intensity : ℕ) : ℕ := intensity * 8

/-- Observable ping-pong slot trace of one `bloomPass(source, nPasses)`
invocation (lines 539-605). -/
structure BloomTrace where
  blurWrites : List ℕ
  lastActiveTexture : ℕ
  compositeReadSlot : ℕ
  compositeWriteSlot : ℕ
  returnedSlot : ℕ

/-- Model of `bloomPass` (lines 539-605). The blur loop runs
`pass = 0 .. nPasses * 2 - 1`; each iteration binds framebuffer
`pingpong[pass % 2]` and issues one single-direction blur draw, and the
variable `lastActiveTexture` is assigned `pass % 2` each iteration (starting
at `0`). The composite step binds framebuffer
`pingpong[lastActiveTexture ^ 1]` (line 580) while reading the blurred
result from `pingpong[lastActiveTexture]` on texture unit 1 (line 591), and
the function returns `pingpong[lastActiveTexture ^ 1].rbuf` (line 604). -/
def bloomPass (nPasses : ℕ) : BloomTrace :=
  let passes := List.range (nPasses * 2)
  let last := passes.foldl (fun _ pass => pass % 2) 0
  { blurWrites := passes.map (fun pass => pass % 2)
    lastActiveTexture := last
    compositeReadSlot := last
    compositeWriteSlot := last ^^^ 1
    returnedSlot := last ^^^ 1 }

lemma bloomPass_compositeWriteSlot (n : ℕ) :
    (bloomPass n).compositeWriteSlot = (bloomPass n).lastActiveTexture ^^^ 1 := rfl

lemma bloomPass_compositeReadSlot (n : ℕ) :
    (bloomPass n).compositeReadSlot = (bloomPass n).lastActiveTexture := rfl

lemma bloomPass_returnedSlot (n : ℕ) :
    (bloomPass n).returnedSlot = (bloomPass n).lastActiveTexture ^^^ 1 := rfl

lemma foldl_last_range (a : ℕ) (k : ℕ) :
    (List.range (k + 1)).foldl (fun _ pass => pass % 2) a = k % 2 := by
  rw [List.range_succ, List.foldl_append, List.foldl_cons, List.foldl_nil]

/-- After at least one configured blur pass (hence at least two loop
iterations), the last blur output slot is slot `1`. -/
lemma bloom_lastActive (n : ℕ) (hn : 1 ≤ n) :
    (bloomPass n).lastActiveTexture = 1 := by
  show (List.range (n * 2)).foldl (fun _ pass => pass % 2) 0 = 1
  obtain ⟨m, rfl⟩ : ∃ m, n = m + 1 := ⟨n - 1, by omega⟩
  have h2 : (m + 1) * 2 = (2 * m + 1) + 1 := by ring
  rw [h2, foldl_last_range]
  omega

/-- Claim C9: in every bloom invocation with at least one configured blur
pass, the composite step writes into the ping-pong slot that does not hold
the final blur result, and the texture returned by `bloomPass` is that
composite slot's texture. -/
theorem bloom_composite_no_alias (nPasses : ℕ) (hn : 1 ≤ nPasses) :
    (bloomPass nPasses).compositeWriteSlot ≠ (bloomPass nPasses).compositeReadSlot ∧
    (bloomPass nPasses).returnedSlot = (bloomPass nPasses).compositeWriteSlot := by
  have hl := bloom_lastActive nPasses hn
  rw [bloomPass_compositeWriteSlot, bloomPass_compositeReadSlot,
    bloomPass_returnedSlot, hl]
  exact ⟨by decide, rfl⟩

theorem bloom_composite_no_alias_witness :
    (1 ≤ 8) ∧
    ((bloomPass 8).compositeWriteSlot ≠ (bloomPass 8).compositeReadSlot ∧
     (bloomPass 8).returnedSlot = (bloomPass 8).compositeWriteSlot) :=
  ⟨by norm_num, bloom_composite_no_alias 8 (by norm_num)⟩

/-- The number of single-direction blur draw invocations executed by one
`draw` call with bloom enabled: `draw` (lines 504-506) invokes
`bloomPass(scene, nBloomPasses)` whose blur loop issues one draw per
iteration. -/
def drawBlurInvocations (intensity : ℕ) : ℕ :=
  ((bloomPass (nBloomPassesOf intensity)).blurWrites).length

/-- Claim C3, counterexample: at bloom intensity `1` one draw executes `16`
single-direction blur draws, not `1 × 8 = 8` — the configured
`nBloomPasses = 8` is doubled by the loop bound `nPasses * 2`. -/
theorem bloom_blur_count_counterexample :
    drawBlurInvocations 1 = 16 ∧ (16 : ℕ) ≠ 8 := by
  constructor
  · simp [drawBlurInvocations, bloomPass, nBloomPassesOf]
  · decide

/-- Claim C3 (amended): for every configured bloom intensity
`k ∈ {1, 2, 4, 8}`, the configured pass count is `k × 8`, and one draw call
with bloom enabled executes exactly `k × 16` single-direction blur draw
invocations (32/64/128 for 2/4/8) — each configured pass comprises one
horizontal and one vertical blur. -/
theorem bloom_blur_invocations (intensity : ℕ)
    (h : intensity = 1 ∨ intensity = 2 ∨ intensity = 4 ∨ intensity = 8) :
    nBloomPassesOf intensity = intensity * 8 ∧
    drawBlurInvocations intensity = intensity * 16 := by
  refine ⟨rfl, ?_⟩
  simp only [drawBlurInvocations, bloomPass, nBloomPassesOf, List.length_map,
    List.length_range]
  ring

theorem bloom_blur_invocations_witness :
    ((2:ℕ) = 1 ∨ (2:ℕ) = 2 ∨ (2:ℕ) = 4 ∨ (2:ℕ) = 8) ∧
    (nBloomPassesOf 2 = 2 * 8 ∧ drawBlurInvocations 2 = 2 * 16) :=
  ⟨Or.inr (Or.inl rfl), bloom_blur_invocations 2 (Or.inr (Or.inl rfl))⟩

/-! ## Engine configuration setters (webgl-engine.ts, lines 297-311 and
353-374) -/

/-- The slice of `WebGLEngine` state these setters interact with: canvas
CSS size, the MSAA flag, the texture-size modifier, the size at which the
offscreen targets were (re)allocated, and a counter of `onResize`
invocations. -/
structure EngineState where
  canvasClientWidth : ℚ
  canvasClientHeight : ℚ
  msaaEnabled : Bool
  textureSizeModifier : ℚ
  allocWidth : ℤ
  allocHeight : ℤ
  resizeCount : ℕ

/-- Width half of `WebGLEngine.textureSize` (lines 430-438):
`ceil(canvas.clientWidth * textureSizeModifier)`. -/
def textureSizeW (e : EngineState) : ℤ :=
  ⌈e.canvasClientWidth * e.textureSizeModifier⌉

/-- Height half of `WebGLEngine.textureSize` (lines 430-438):
`ceil(canvas.clientHeight * textureSizeModifier)`. -/
def textureSizeH (e : EngineState) : ℤ :=
  ⌈e.canvasClientHeight * e.textureSizeModifier⌉

/-- Model of `WebGLEngine.onResize` (lines 353-374): reallocates the two ping-pong
textures, the scene texture and the MSAA renderbuffer at the current
`textureSize`. Modelled as recording the allocation size and counting the
invocation. -/
def engineOnResize (e : EngineState) : EngineState :=
  { e with allocWidth := textureSizeW e, allocHeight := textureSizeH e,
           resizeCount := e.resizeCount + 1 }

/-- Model of `WebGLEngine.setMSAAEnabled` (lines 297-299): stores the flag and does
nothing else. -/
def engineSetMSAAEnabled (e : EngineState) (enabled : Bool) : EngineState :=
  { e with msaaEnabled := enabled }

/-- Model of `WebGLEngine.setTextureSizeModifier` (lines 308-311): stores
`Math.min(mod, 2)` and calls `this.onResize()`. -/
def engineSetTextureSizeModifier (e : EngineState) (m : ℚ) : EngineState :=
  engineOnResize { e with textureSizeModifier := min m 2 }

def exEngine : EngineState :=
  { canvasClientWidth := 100, canvasClientHeight := 50, msaaEnabled := true,
    textureSizeModifier := 1, allocWidth := 100, allocHeight := 50,
    resizeCount := 0 }

/-- Claim C4, counterexample: turning MSAA off on a concrete engine state
changes the anti-aliasing setting but performs no `onResize` — the resize
counter and the allocated target size are untouched. -/
theorem msaa_toggle_does_not_resize :
    (engineSetMSAAEnabled exEngine false).msaaEnabled ≠ exEngine.msaaEnabled ∧
    (engineSetMSAAEnabled exEngine false).resizeCount = exEngine.resizeCount ∧
    (engineSetMSAAEnabled exEngine false).allocWidth = exEngine.allocWidth ∧
    (engineSetMSAAEnabled exEngine false).allocHeight = exEngine.allocHeight := by
  refine ⟨?_, rfl, rfl, rfl⟩
  simp [engineSetMSAAEnabled, exEngine]

/-- Claim C4 (amended): every `setTextureSizeModifier` call triggers the
engine's `onResize`, reallocating the offscreen targets at the texture size
computed from the new (clamped) modifier; `setMSAAEnabled` only stores the
flag and does not trigger `onResize` (no reallocation, no resize count
change). -/
theorem resize_trigger_on_setters (e : EngineState) (m : ℚ) (b : Bool) :
    ((engineSetTextureSizeModifier e m).resizeCount = e.resizeCount + 1 ∧
     (engineSetTextureSizeModifier e m).textureSizeModifier = min m 2 ∧
     (engineSetTextureSizeModifier e m).allocWidth =
       textureSizeW { e with textureSizeModifier := min m 2 } ∧
     (engineSetTextureSizeModifier e m).allocHeight =
       textureSizeH { e with textureSizeModifier := min m 2 }) ∧
    ((engineSetMSAAEnabled e b).msaaEnabled = b ∧
     (engineSetMSAAEnabled e b).resizeCount = e.resizeCount ∧
     (engineSetMSAAEnabled e b).allocWidth = e.allocWidth ∧
     (engineSetMSAAEnabled e b).allocHeight = e.allocHeight) :=
  ⟨⟨rfl, rfl, rfl, rfl⟩, ⟨rfl, rfl, rfl, rfl⟩⟩

end IrisSpec
